import Mathlib

/-!
Verification development for the `memoize` package.

The development shallowly embeds the two core modules of the package:

* `memoize_api.py` — the abstract memoization engine (`MemoizeAPI`): key
  derivation, argument-set hashing, and the `get`/`put`/`run` protocol,
  together with the concrete JSON-file backend of `to_json.py` (`ToJSON`).
  Python values that can appear as cached data are modelled by `PyVal`
  (with `PyVal.none` playing the role of Python's `None`), a backend
  directory by an association list from file name to stored value, and
  Python exceptions by `Except`.  The composition `sha512 ∘ pickle.dumps`
  is modelled by an abstract digest function on the normalized argument
  pair, since `pickle.dumps` is injective on argument sets.

* `fifo_mutex_api.py` — the file-based FIFO mutex (`FifoMutex_API`).  A
  filesystem is a list of `((directory, name), ctime)` entries; a relative
  `open` resolves against the process working directory, which is part of
  the configuration.  For the concurrency analysis the protocol is also
  embedded as a transition system (`MuxStep`) over the states of several
  instances contending for one `{prefix}_{key}` namespace.
-/

/-- Python runtime values that can appear as cached data or as arguments.
`PyVal.none` models Python's `None`. -/
inductive PyVal where
  | none
  | bool (b : Bool)
  | int (n : Int)
  | str (s : String)
deriving DecidableEq

/-- Python exceptions raised by the engine or the JSON backend:
`KeyError` from `MemoizeAPI.put`, `FileNotFoundError` from `os.remove`
in `ToJSON.delete`. -/
inductive MemErr where
  | keyError (key : String)
  | fileNotFound (fname : String)
deriving DecidableEq

/-- An ordered Python `dict` (or a JSON cache directory) as an association
list, insertion-ordered like CPython dicts. -/
abbrev PyDict := List (String × PyVal)

/-- Positional and keyword arguments of one call: `(*args_in, **kwargs_in)`. -/
abbrev Args := List PyVal × PyDict

/-- Abstract model of `hashlib.sha512(pickle.dumps([act_args, act_kwargs])).hexdigest()`:
an arbitrary function of the normalized argument pair (pickling is injective
on this domain, so passing the pair itself loses nothing). -/
abbrev DigestFn := List PyVal × PyDict → String

/-- Dictionary lookup: the value at the first binding of `k`, as in a Python
dict (which has at most one binding per key). -/
def dictGet : PyDict → String → Option PyVal
  | [], _ => Option.none
  | (k', v) :: rest, k => if k' = k then some v else dictGet rest k

/-- Python `d[k] = v` semantics on the association list: replace the first
binding of `k` in place, else append at the end (CPython insertion order). -/
def dictSet : PyDict → String → PyVal → PyDict
  | [], k, v => [(k, v)]
  | (k', v') :: rest, k, v =>
      if k' = k then (k', v) :: rest else (k', v') :: dictSet rest k v

/-- Python `d.update(upd)` applied to a copy of `d`, as in
`full_kwargs = dict(self.default_kwargs); full_kwargs.update(kwargs_in)`. -/
def dictUpdate (d : PyDict) (upd : PyDict) : PyDict :=
  upd.foldl (fun acc kv => dictSet acc kv.1 kv.2) d

/-- Removal of the first binding of `k` (deleting the one cache file named
`k`, as `os.remove` does). -/
def dictRemove : PyDict → String → PyDict
  | [], _ => []
  | (k', v) :: rest, k => if k' = k then rest else (k', v) :: dictRemove rest k

/-- A cache directory has no duplicate file names. -/
def keysNodup (s : PyDict) : Prop := (s.map Prod.fst).Nodup

/-- Construction-time configuration of `MemoizeAPI.__init__`: the wrapped
function's name, the key prefix, the ignore lists, the key delimiter and the
default keyword arguments captured from the function's signature. -/
structure MemCfg where
  func_name : String
  cache_prefix : String
  ignore_args : Option (List Nat)
  ignore_kwargs : Option (List String)
  delim : String
  default_kwargs : PyDict

/-- Embedding of `MemoizeAPI.hash`: filter ignored positional indices,
merge the captured default kwargs under the passed kwargs, filter ignored
keyword names, then digest the normalized pair. -/
def MemoizeAPI.hash (cfg : MemCfg) (dg : DigestFn)
    (args_in : List PyVal) (kwargs_in : PyDict) : String :=
  let act_args :=
    match cfg.ignore_args with
    | Option.none => args_in
    | some ig => (args_in.enum.filter (fun p => ¬ p.1 ∈ ig)).map (·.2)
  let full_kwargs := dictUpdate cfg.default_kwargs kwargs_in
  let act_kwargs :=
    match cfg.ignore_kwargs with
    | Option.none => full_kwargs
    | some ig => full_kwargs.filter (fun kv => ¬ kv.1 ∈ ig)
  dg (act_args, act_kwargs)

/-- Embedding of `MemoizeAPI.key`: `base = f"{func_name}{delim}{hash}"`,
returned bare when `cache_prefix == ""` and as `f"{cache_prefix}{delim}{base}"`
otherwise. -/
def MemoizeAPI.key (cfg : MemCfg) (dg : DigestFn)
    (args_in : List PyVal) (kwargs_in : PyDict) : String :=
  let base := cfg.func_name ++ cfg.delim ++ MemoizeAPI.hash cfg dg args_in kwargs_in
  if cfg.cache_prefix = "" then base
  else cfg.cache_prefix ++ cfg.delim ++ base

/-- The storage-backend capability consumed by the engine (`check`, `fetch`,
`store`, `delete` of the abstract `MemoizeAPI`), over a backend state `σ`. -/
structure Backend (σ : Type) where
  check : σ → String → Bool
  fetch : σ → String → PyVal
  store : σ → String → PyVal → σ
  delete : σ → String → Except MemErr σ

/-- Result of one `run()` call: the backend state afterwards, the returned
value or the propagated exception, and how many times the wrapped function
was invoked during this call. -/
structure RunResult (σ : Type) where
  state : σ
  ret : Except MemErr PyVal
  calls : Nat

/-- Embedding of `MemoizeAPI.get`: return the fetched item when `check`
succeeds and Python's implicit `None` otherwise.  The `with self.lock(key)`
around `fetch` does not affect the value. -/
def MemoizeAPI.get {σ : Type} (B : Backend σ) (s : σ) (k : String) : PyVal :=
  if B.check s k then B.fetch s k else PyVal.none

/-- Embedding of `MemoizeAPI.put`: raise `KeyError` when the key already
exists, else store under the lock and pass `data` through. -/
def MemoizeAPI.put {σ : Type} (B : Backend σ) (s : σ) (k : String) (data : PyVal) :
    Except MemErr (σ × PyVal) :=
  if B.check s k then Except.error (MemErr.keyError k)
  else Except.ok (B.store s k data, data)

/-- Embedding of `MemoizeAPI.run`: derive the key; when the invalidate flag
is set call `delete` (whose exception propagates); treat a `get` result that
`is not None` as a hit; otherwise invoke the wrapped function and `put` the
result. -/
def MemoizeAPI.run {σ : Type} (B : Backend σ) (f : Args → PyVal)
    (okey : Args → String) (invalidate : Bool) (s : σ) (a : Args) :
    RunResult σ :=
  let k := okey a
  match (if invalidate then B.delete s k else Except.ok s) with
  | Except.error e => ⟨s, Except.error e, 0⟩
  | Except.ok s1 =>
      let out := MemoizeAPI.get B s1 k
      if out = PyVal.none then
        let data := f a
        match MemoizeAPI.put B s1 k data with
        | Except.error e => ⟨s1, Except.error e, 1⟩
        | Except.ok (s2, d) => ⟨s2, Except.ok d, 1⟩
      else ⟨s1, Except.ok out, 0⟩

/-- The JSON backend's cache directory (`to_json.py`), as a map from file
name to the decoded stored value; the constant `cache_path` prefix that
`os.path.join` would add to every name is elided. -/
abbrev Store := PyDict

/-- Embedding of `ToJSON.check`: `os.path.exists` on the cache file. -/
def ToJSON.check (s : Store) (fname : String) : Bool :=
  (dictGet s fname).isSome

/-- Embedding of `ToJSON.fetch`: `json.load` of the cache file (only called
on existing files; an absent file is given a junk default). -/
def ToJSON.fetch (s : Store) (fname : String) : PyVal :=
  (dictGet s fname).getD PyVal.none

/-- Embedding of `ToJSON.store`: `json.dump`, creating or overwriting the
cache file. -/
def ToJSON.store (s : Store) (fname : String) (v : PyVal) : Store :=
  dictSet s fname v

/-- Embedding of `ToJSON.delete`: `os.remove`, which raises
`FileNotFoundError` when the file does not exist. -/
def ToJSON.delete (s : Store) (fname : String) : Except MemErr Store :=
  if ToJSON.check s fname then Except.ok (dictRemove s fname)
  else Except.error (MemErr.fileNotFound fname)

/-- The JSON backend packaged as the capability record the engine consumes. -/
def jsonBackend : Backend Store :=
  ⟨ToJSON.check, ToJSON.fetch, ToJSON.store, ToJSON.delete⟩

/-- Embedding of `ToJSON.key`: the superclass key with the `.json` extension
appended. -/
def ToJSON.key (cfg : MemCfg) (dg : DigestFn)
    (args_in : List PyVal) (kwargs_in : PyDict) : String :=
  MemoizeAPI.key cfg dg args_in kwargs_in ++ ".json"

/-- Configuration of the spec's miss-then-hit scenario: `ToJSON(square)`
with all-default engine parameters (`square` takes one positional argument
and has no defaults). -/
def sqCfg : MemCfg :=
  { func_name := "square"
    cache_prefix := ""
    ignore_args := Option.none
    ignore_kwargs := Option.none
    delim := "_"
    default_kwargs := [] }

/-- The wrapped function of the miss-then-hit scenario: `square(x) = x * x`. -/
def square : Args → PyVal :=
  fun a => match a.1 with
    | [PyVal.int n] => PyVal.int (n * n)
    | _ => PyVal.none

/-- Events of one engine call, for reasoning about which steps execute while
a lock is held.  `check` records the result of the backend existence test,
`acquire`/`release` delimit a `with self.lock(key)` block, `compute` is the
invocation of the wrapped function, and `deleteEv` is the invalidation
delete at the top of `run`. -/
inductive Ev where
  | check (k : String) (result : Bool)
  | acquire
  | release
  | fetchEv (k : String)
  | storeEv (k : String)
  | compute
  | deleteEv (k : String)
deriving DecidableEq

/-- Event trace of `MemoizeAPI.get`, each event paired with the number of
locks held while it executes: the existence check runs outside the `with`
block, only `fetch` runs inside it. -/
def getTrace {σ : Type} (B : Backend σ) (s : σ) (k : String) : List (Ev × Nat) :=
  if B.check s k then
    [(Ev.check k true, 0), (Ev.acquire, 1), (Ev.fetchEv k, 1), (Ev.release, 0)]
  else [(Ev.check k false, 0)]

/-- Event trace of `MemoizeAPI.put`: the existence check runs outside the
`with` block; on a duplicate key the `KeyError` is raised right after the
check; only `store` runs inside the block. -/
def putTrace {σ : Type} (B : Backend σ) (s : σ) (k : String) : List (Ev × Nat) :=
  if B.check s k then [(Ev.check k true, 0)]
  else [(Ev.check k false, 0), (Ev.acquire, 1), (Ev.storeEv k, 1), (Ev.release, 0)]

/-- Event trace of `MemoizeAPI.run`: the invalidation delete happens first
and outside any lock; then `get`; on a miss the wrapped function is invoked
(outside any lock) and `put` runs.  The lock-count annotations mirror the
`with self.lock(key)` blocks of the source. -/
def runTrace {σ : Type} (B : Backend σ) (_f : Args → PyVal)
    (okey : Args → String) (invalidate : Bool) (s : σ) (a : Args) :
    List (Ev × Nat) :=
  let k := okey a
  let pre : List (Ev × Nat) := if invalidate then [(Ev.deleteEv k, 0)] else []
  match (if invalidate then B.delete s k else Except.ok s) with
  | Except.error _ => pre
  | Except.ok s1 =>
      if MemoizeAPI.get B s1 k = PyVal.none then
        pre ++ getTrace B s1 k ++ [(Ev.compute, 0)] ++ putTrace B s1 k
      else pre ++ getTrace B s1 k

/-- The property asserted by the spec for a miss: every existence check, the
computation of the wrapped function and the store all execute while at least
one lock is held. -/
def lockCoversCCS (tr : List (Ev × Nat)) : Bool :=
  tr.all fun p =>
    match p.1 with
    | Ev.check _ _ => decide (1 ≤ p.2)
    | Ev.compute => decide (1 ≤ p.2)
    | Ev.storeEv _ => decide (1 ≤ p.2)
    | _ => true

/-- Embedding of `str.startswith(p)`. -/
def strStartsWith (s p : String) : Bool :=
  p.data.isPrefixOf s.data

/-- A path in the modelled filesystem: directory and file name.  A relative
`open` resolves the bare file name against the process working directory. -/
abbrev FPath := String × String

/-- A filesystem: the existing files with their creation times. -/
abbrev Fs := List (FPath × Nat)

/-- The `FileNotFoundError` raised by `os.remove` on a missing path. -/
inductive FifoErr where
  | fileNotFound
deriving DecidableEq

/-- Construction-time state of one `FifoMutex_API` instance, together with
the working directory of its process (which is where a relative `open`
lands). -/
structure FifoCfg where
  lock_prefix : String
  lock_path : String
  key : String
  hostname : String
  obj_id : String
  cwd : String

/-- Embedding of `self.full_prefix = f"{self.lock_prefix}_{self.key}"`. -/
def FifoCfg.full_prefix (c : FifoCfg) : String :=
  c.lock_prefix ++ "_" ++ c.key

/-- Embedding of `uuid`: `f"{socket.gethostname()}_{id(self)}"`. -/
def FifoCfg.uuid (c : FifoCfg) : String :=
  c.hostname ++ "_" ++ c.obj_id

/-- Embedding of `lock_key`: `f"{self.full_prefix}_{base}"`. -/
def FifoCfg.lock_key (c : FifoCfg) : String :=
  c.full_prefix ++ "_" ++ c.uuid

/-- Embedding of `full_key_path()` with no argument:
`os.path.join(self.lock_path, self.lock_key())`. -/
def FifoCfg.full_key_path (c : FifoCfg) : FPath :=
  (c.lock_path, c.lock_key)

/-- Embedding of `os.listdir`: the names of the files in one directory. -/
def listdir (fs : Fs) (d : String) : List String :=
  (fs.filter (fun e => e.1.1 = d)).map (fun e => e.1.2)

/-- Removal of a path from the filesystem (no-op when absent). -/
def removeFile (fs : Fs) (p : FPath) : Fs :=
  fs.filter (fun e => ¬ e.1 = p)

/-- Embedding of `open(path, "w")`: create the file, truncating (and hence
re-timestamping) any previous file at the same path. -/
def writeFile (fs : Fs) (p : FPath) (now : Nat) : Fs :=
  (p, now) :: removeFile fs p

/-- Embedding of `cast_lock`: `open(self.lock_key(), "w")`.  The argument of
`open` is the bare lock name, a relative path, so the file is created in the
process working directory. -/
def FifoCfg.cast_lock (c : FifoCfg) (fs : Fs) (now : Nat) : Fs :=
  writeFile fs (c.cwd, c.lock_key) now

/-- Embedding of `yield_matching_prefix`: names under `lock_path` that start
with the shared `{lock_prefix}_{key}` prefix. -/
def FifoCfg.yield_matching_prefix (c : FifoCfg) (fs : Fs) : List String :=
  (listdir fs c.lock_path).filter (fun item => strStartsWith item c.full_prefix)

/-- Embedding of `get_matching_key`: the first listed name that starts with
this instance's own `lock_key`. -/
def FifoCfg.get_matching_key (c : FifoCfg) (fs : Fs) : Option String :=
  (c.yield_matching_prefix fs).find? (fun item => strStartsWith item c.lock_key)

/-- Embedding of `check`: whether this instance's lock file is present in
the lock directory. -/
def FifoCfg.check (c : FifoCfg) (fs : Fs) : Bool :=
  (c.get_matching_key fs).isSome

/-- Embedding of `os.remove` as used by `FifoMutex_API.delete`: remove the
path or raise `FileNotFoundError`. -/
def osRemove (fs : Fs) (p : FPath) : Except FifoErr Fs :=
  if (fs.find? (fun e => e.1 = p)).isSome then Except.ok (removeFile fs p)
  else Except.error FifoErr.fileNotFound

/-- Embedding of `unlock`: set `_lock = False`, then delete the instance's
lock file inside a `try`, turning `FileNotFoundError` into a log line.  The
returned flag is the new `_lock` field. -/
def FifoCfg.unlock (c : FifoCfg) (fs : Fs) : Except FifoErr (Fs × Bool) :=
  match osRemove fs c.full_key_path with
  | Except.ok fsNew => Except.ok (fsNew, false)
  | Except.error FifoErr.fileNotFound => Except.ok (fs, false)

/-- Embedding of `timedelta.seconds` for a nonnegative whole-second age:
the seconds component of the timedelta, with whole days discarded. -/
def tdSeconds (ageS : Nat) : Nat :=
  ageS % 86400

/-- The deadlock-reclamation guard of `wait_for_lock`:
`(datetime.now() - cur[0]).seconds > self.deadlock_age_s`. -/
def deadlockGuard (deadlock_age_s : Nat) (ageS : Nat) : Bool :=
  decide (tdSeconds ageS > deadlock_age_s)

/-- Protocol state of one `FifoMutex_API` instance: `unlocked` before
`lock()` and after `unlock()`, `waiting` inside the `wait_for_lock` poll
loop, `held` once `_lock = True`. -/
inductive MuxStatus where
  | unlocked
  | waiting
  | held
deriving DecidableEq

/-- Shared configuration of the contention model: the deadlock-age
threshold, and the path ordering `tb` used by `sorted` to break ties
between lock files with equal creation times (`ι` indexes the contending
instances; each instance's lock-file name is fixed and unique, so a file is
identified by its owner). -/
structure MuxCfg (ι : Type) where
  deadlock_age_s : Nat
  tb : ι → ι → Bool

/-- Global state of the contention model: a logical clock (in seconds), the
lock file of each instance (its creation time, when present) and each
instance's protocol state.  All instances share one `{prefix}_{key}`
namespace and cast from a working directory equal to the lock directory, so
listing the directory yields exactly the present files. -/
structure MuxSys (ι : Type) where
  clock : Nat
  file : ι → Option Nat
  status : ι → MuxStatus

/-- Whether instance `i`, owning a file created at `t`, precedes the file of
`j` (if any) in the `sorted`-by-`(ctime, path)` order of `get_locks`. -/
def muxBeats {ι : Type} (cfg : MuxCfg ι) (i : ι) (t : Nat) (fo : Option Nat)
    (j : ι) : Prop :=
  match fo with
  | Option.none => True
  | some u => t < u ∨ (t = u ∧ cfg.tb i j = true)

instance {ι : Type} (cfg : MuxCfg ι) (i : ι) (t : Nat) (fo : Option Nat) (j : ι) :
    Decidable (muxBeats cfg i t fo j) := by
  unfold muxBeats
  cases fo <;> infer_instance

/-- The file of `i` is the head of `get_locks()`: it is present and precedes
every other present file in the `(ctime, path)` order. -/
def isOldest {ι : Type} (cfg : MuxCfg ι) (s : MuxSys ι) (i : ι) (t : Nat) : Prop :=
  s.file i = some t ∧ ∀ j, j ≠ i → muxBeats cfg i t (s.file j) j

instance {ι : Type} [DecidableEq ι] [Fintype ι] (cfg : MuxCfg ι) (s : MuxSys ι)
    (i : ι) (t : Nat) : Decidable (isOldest cfg s i t) := by
  unfold isOldest
  infer_instance

/-- One interleaved step of the contention model, following
`fifo_mutex_api.py`:

* `cast`: an instance enters `lock()` and runs `cast_lock()`, creating its
  file at the current clock; casting advances the clock so creation times
  are distinct.
* `succeed`: a polling waiter observes `full_key_path() == get_oldest_lock()[1]`
  and sets `_lock = True`.
* `recast`: a polling waiter whose own file is gone runs `cast_lock()`
  again, re-entering the queue with a fresh timestamp.
* `reclaim`: a polling waiter observes that the head of the queue fails the
  deadlock-age test `(now - ctime).seconds > deadlock_age_s` and deletes
  that file, whoever owns it.
* `unlock`: the holder deletes its own file and returns to `unlocked`.
* `tick`: wall-clock time passes (the `time.sleep(poll_time_s)` calls). -/
inductive MuxStep {ι : Type} [DecidableEq ι] (cfg : MuxCfg ι) :
    MuxSys ι → MuxSys ι → Prop where
  | cast (s : MuxSys ι) (i : ι) :
      s.status i = MuxStatus.unlocked →
      MuxStep cfg s ⟨s.clock + 1, Function.update s.file i (some s.clock),
        Function.update s.status i MuxStatus.waiting⟩
  | succeed (s : MuxSys ι) (i : ι) (t : Nat) :
      s.status i = MuxStatus.waiting →
      isOldest cfg s i t →
      MuxStep cfg s ⟨s.clock, s.file, Function.update s.status i MuxStatus.held⟩
  | recast (s : MuxSys ι) (i : ι) :
      s.status i = MuxStatus.waiting →
      s.file i = Option.none →
      MuxStep cfg s ⟨s.clock + 1, Function.update s.file i (some s.clock), s.status⟩
  | reclaim (s : MuxSys ι) (i j : ι) (t : Nat) :
      s.status i = MuxStatus.waiting →
      isOldest cfg s j t →
      deadlockGuard cfg.deadlock_age_s (s.clock - t) = true →
      MuxStep cfg s ⟨s.clock, Function.update s.file j Option.none, s.status⟩
  | unlock (s : MuxSys ι) (i : ι) :
      s.status i = MuxStatus.held →
      MuxStep cfg s ⟨s.clock, Function.update s.file i Option.none,
        Function.update s.status i MuxStatus.unlocked⟩
  | tick (s : MuxSys ι) (d : Nat) :
      MuxStep cfg s ⟨s.clock + d, s.file, s.status⟩

/-- Reflexive-transitive closure of `MuxStep`: the reachable executions. -/
inductive MuxReach {ι : Type} [DecidableEq ι] (cfg : MuxCfg ι) :
    MuxSys ι → MuxSys ι → Prop where
  | refl (s : MuxSys ι) : MuxReach cfg s s
  | tail {s t u : MuxSys ι} : MuxReach cfg s t → MuxStep cfg t u → MuxReach cfg s u

/-- The same step relation with deadlock reclamation restricted to files
whose owner is not currently holding the mutex (the reclaimed file belongs
to a crashed or waiting owner, never to a live holder). -/
inductive MuxStepSafe {ι : Type} [DecidableEq ι] (cfg : MuxCfg ι) :
    MuxSys ι → MuxSys ι → Prop where
  | cast (s : MuxSys ι) (i : ι) :
      s.status i = MuxStatus.unlocked →
      MuxStepSafe cfg s ⟨s.clock + 1, Function.update s.file i (some s.clock),
        Function.update s.status i MuxStatus.waiting⟩
  | succeed (s : MuxSys ι) (i : ι) (t : Nat) :
      s.status i = MuxStatus.waiting →
      isOldest cfg s i t →
      MuxStepSafe cfg s ⟨s.clock, s.file, Function.update s.status i MuxStatus.held⟩
  | recast (s : MuxSys ι) (i : ι) :
      s.status i = MuxStatus.waiting →
      s.file i = Option.none →
      MuxStepSafe cfg s ⟨s.clock + 1, Function.update s.file i (some s.clock), s.status⟩
  | reclaim (s : MuxSys ι) (i j : ι) (t : Nat) :
      s.status i = MuxStatus.waiting →
      isOldest cfg s j t →
      deadlockGuard cfg.deadlock_age_s (s.clock - t) = true →
      s.status j ≠ MuxStatus.held →
      MuxStepSafe cfg s ⟨s.clock, Function.update s.file j Option.none, s.status⟩
  | unlock (s : MuxSys ι) (i : ι) :
      s.status i = MuxStatus.held →
      MuxStepSafe cfg s ⟨s.clock, Function.update s.file i Option.none,
        Function.update s.status i MuxStatus.unlocked⟩
  | tick (s : MuxSys ι) (d : Nat) :
      MuxStepSafe cfg s ⟨s.clock + d, s.file, s.status⟩

/-- Reachability under the reclamation-safe step relation. -/
inductive MuxReachSafe {ι : Type} [DecidableEq ι] (cfg : MuxCfg ι) :
    MuxSys ι → MuxSys ι → Prop where
  | refl (s : MuxSys ι) : MuxReachSafe cfg s s
  | tail {s t u : MuxSys ι} :
      MuxReachSafe cfg s t → MuxStepSafe cfg t u → MuxReachSafe cfg s u

/-- The spec's mutual-exclusion property: at most one instance observes the
held state at any instant. -/
def AtMostOneHeld {ι : Type} (s : MuxSys ι) : Prop :=
  ∀ i j, s.status i = MuxStatus.held → s.status j = MuxStatus.held → i = j

/-- Two contending instances with the default one-hour deadlock-age
threshold; ties in creation time (never exercised) break by index order as
a stand-in for lexicographic path order. -/
def cfg2 : MuxCfg (Fin 2) :=
  { deadlock_age_s := 3600, tb := fun i j => decide (i < j) }

/-- Initial state of the two-instance scenario: nothing cast, both unlocked. -/
def mux0 : MuxSys (Fin 2) :=
  ⟨0, fun _ => Option.none, fun _ => MuxStatus.unlocked⟩

/-- Instance 0 casts its lock file at time 0. -/
def mux1 : MuxSys (Fin 2) :=
  ⟨mux0.clock + 1, Function.update mux0.file 0 (some mux0.clock),
    Function.update mux0.status 0 MuxStatus.waiting⟩

/-- Instance 0 finds itself at the head of the queue and takes the mutex. -/
def mux2 : MuxSys (Fin 2) :=
  ⟨mux1.clock, mux1.file, Function.update mux1.status 0 MuxStatus.held⟩

/-- Instance 1 casts its lock file at time 1 and starts polling. -/
def mux3 : MuxSys (Fin 2) :=
  ⟨mux2.clock + 1, Function.update mux2.file 1 (some mux2.clock),
    Function.update mux2.status 1 MuxStatus.waiting⟩

/-- An hour and a second of wall-clock time passes while instance 0 still
holds the mutex. -/
def mux4 : MuxSys (Fin 2) :=
  ⟨mux3.clock + 3601, mux3.file, mux3.status⟩

/-- Instance 1 observes that the queue head (instance 0's file) is older
than the threshold and reclaims it, although its owner is alive and held. -/
def mux5 : MuxSys (Fin 2) :=
  ⟨mux4.clock, Function.update mux4.file 0 Option.none, mux4.status⟩

/-- Instance 1 now finds itself at the head of the queue and takes the
mutex as well. -/
def mux6 : MuxSys (Fin 2) :=
  ⟨mux5.clock, mux5.file, Function.update mux5.status 1 MuxStatus.held⟩

/-- Inductive invariant of the contention model: file creation times lie in
the past of the clock and are pairwise distinct, and a holder's file is
present and strictly earliest. -/
def MuxInv {ι : Type} (s : MuxSys ι) : Prop :=
  (∀ i t, s.file i = some t → t < s.clock) ∧
  (∀ i j ti tj, i ≠ j → s.file i = some ti → s.file j = some tj → ti ≠ tj) ∧
  (∀ i, s.status i = MuxStatus.held →
    ∃ t, s.file i = some t ∧ ∀ j tj, j ≠ i → s.file j = some tj → t < tj)

/-- A concrete digest stand-in used to evaluate the engine on closed
inputs. -/
def dg0 : DigestFn := fun _ => "D"

/-- A mutex instance whose lock directory is `/tmp` while its process runs
with working directory `/work`. -/
def c3cfg : FifoCfg :=
  ⟨"lock", "/tmp", "K", "host", "140", "/work"⟩

/-- The filesystem after that instance casts its lock on an empty
filesystem. -/
def c3fs : Fs := c3cfg.cast_lock [] 0

/-- The lock-scope discipline a single trace event obeys in the source:
existence checks, the wrapped-function invocation and the invalidation
delete run with no lock held, while `fetch` and `store` run under exactly
one lock. -/
def evLockScope (p : Ev × Nat) : Prop :=
  ((∃ k r, p.1 = Ev.check k r) ∨ p.1 = Ev.compute ∨ (∃ k, p.1 = Ev.deleteEv k) →
    p.2 = 0) ∧
  ((∃ k, p.1 = Ev.fetchEv k) ∨ (∃ k, p.1 = Ev.storeEv k) → p.2 = 1)

/-! Helper lemmas about the dictionary model. -/

/-- Updating a key with the value it already has leaves the dict unchanged. -/
theorem dictSet_of_get (d : PyDict) (k : String) (v : PyVal)
    (h : dictGet d k = some v) : dictSet d k v = d := by
  induction d with
  | nil => simp [dictGet] at h
  | cons kv rest ih =>
      obtain ⟨k', v'⟩ := kv
      by_cases hk : k' = k
      · subst hk
        simp [dictGet] at h
        simp [dictSet, h]
      · simp [dictGet, hk] at h
        simp [dictSet, hk, ih h]

/-- Updating with an empty dict is the identity. -/
theorem dictUpdate_nil (d : PyDict) : dictUpdate d [] = d := rfl

/-- A key outside the key list is not found. -/
theorem dictGet_of_not_mem (d : PyDict) (k : String)
    (h : ¬ k ∈ d.map Prod.fst) : dictGet d k = Option.none := by
  induction d with
  | nil => rfl
  | cons kv rest ih =>
      obtain ⟨k', v'⟩ := kv
      rw [List.map_cons] at h
      have h1 : ¬ k' = k := by
        intro hh
        subst hh
        exact h (List.mem_cons_self _ _)
      have h2 : ¬ k ∈ rest.map Prod.fst := fun hh => h (List.mem_cons_of_mem _ hh)
      simp [dictGet, h1, ih h2]

/-- Deleting the cache file for a key removes the only binding of the key
when file names are unique. -/
theorem dictGet_dictRemove (s : PyDict) (k : String) (h : keysNodup s) :
    dictGet (dictRemove s k) k = Option.none := by
  induction s with
  | nil => rfl
  | cons kv rest ih =>
      obtain ⟨k', v'⟩ := kv
      unfold keysNodup at h
      rw [List.map_cons] at h
      obtain ⟨hnotin, hrest⟩ := List.nodup_cons.mp h
      by_cases hk : k' = k
      · subst hk
        simpa [dictRemove] using dictGet_of_not_mem rest k' hnotin
      · simp [dictRemove, hk, dictGet, ih hrest]

/-- C6: the cache key composes as `{prefix}{delim}{function_name}{delim}{digest}`,
and when the prefix is the empty string it is exactly
`{function_name}{delim}{digest}`, with the prefix segment and its delimiter
omitted entirely. -/
theorem key_composition (cfg : MemCfg) (dg : DigestFn)
    (args_in : List PyVal) (kwargs_in : PyDict) :
    MemoizeAPI.key cfg dg args_in kwargs_in =
      if cfg.cache_prefix = "" then
        cfg.func_name ++ cfg.delim ++ MemoizeAPI.hash cfg dg args_in kwargs_in
      else
        cfg.cache_prefix ++ cfg.delim ++ cfg.func_name ++ cfg.delim ++
          MemoizeAPI.hash cfg dg args_in kwargs_in := by
  unfold MemoizeAPI.key
  split <;> simp [String.append_assoc]

/-- C7: when a parameter's default value is captured in the default keyword
map, passing that keyword explicitly with its default value and omitting it
produce the same cache key, because the default map is merged into the
hashed set before hashing. -/
theorem default_kwarg_key_equal (cfg : MemCfg) (dg : DigestFn)
    (args_in : List PyVal) (name : String) (v : PyVal)
    (h : dictGet cfg.default_kwargs name = some v) :
    MemoizeAPI.key cfg dg args_in [(name, v)] =
      MemoizeAPI.key cfg dg args_in [] := by
  have hupd : dictUpdate cfg.default_kwargs [(name, v)] = cfg.default_kwargs :=
    dictSet_of_get _ _ _ h
  unfold MemoizeAPI.key MemoizeAPI.hash
  rw [hupd, dictUpdate_nil]

/-- Witness for C7 at the spec's example: a function whose parameter `x`
defaults to `1`, called as `f(x=1)` and as `f()`. -/
theorem default_kwarg_key_equal_witness :
    MemoizeAPI.key ⟨"f", "", Option.none, Option.none, "_", [("x", PyVal.int 1)]⟩ dg0
        [] [("x", PyVal.int 1)] =
      MemoizeAPI.key ⟨"f", "", Option.none, Option.none, "_", [("x", PyVal.int 1)]⟩ dg0
        [] [] :=
  default_kwarg_key_equal _ dg0 [] "x" (PyVal.int 1) (by decide)

/-- C9: when an entry exists for the derived key but the fetched value is
the null value, `run` does not return the cached null: it treats the call
as a miss, invokes the wrapped function once, and then `put` raises the
duplicate-key error because the key already exists. -/
theorem run_null_cached_value_keyerror {σ : Type} (B : Backend σ)
    (f : Args → PyVal) (okey : Args → String) (s : σ) (a : Args)
    (hc : B.check s (okey a) = true) (hf : B.fetch s (okey a) = PyVal.none) :
    MemoizeAPI.run B f okey false s a =
      ⟨s, Except.error (MemErr.keyError (okey a)), 1⟩ := by
  simp [MemoizeAPI.run, MemoizeAPI.get, MemoizeAPI.put, hc, hf]

/-- Witness for C9: a backend state caching the null value under key
`"k"`. -/
theorem run_null_cached_value_keyerror_witness :
    MemoizeAPI.run jsonBackend (fun _ => PyVal.int 7) (fun _ => "k") false
        [("k", PyVal.none)] ([], []) =
      ⟨[("k", PyVal.none)], Except.error (MemErr.keyError "k"), 1⟩ :=
  run_null_cached_value_keyerror jsonBackend (fun _ => PyVal.int 7)
    (fun _ => "k") [("k", PyVal.none)] ([], []) (by decide) (by decide)

/-- C5: against an empty JSON backend, `run(5)` of `square(x) = x*x` stores
exactly one entry and returns `25` with one invocation of `square`; a
second `run(5)` on the resulting backend returns `25` from the cache with
no further invocation, for any digest function. -/
theorem miss_then_hit_square (dg : DigestFn) :
    MemoizeAPI.run jsonBackend square (fun a => ToJSON.key sqCfg dg a.1 a.2)
        false [] ([PyVal.int 5], []) =
      ⟨[(ToJSON.key sqCfg dg [PyVal.int 5] [], PyVal.int 25)],
        Except.ok (PyVal.int 25), 1⟩ ∧
    MemoizeAPI.run jsonBackend square (fun a => ToJSON.key sqCfg dg a.1 a.2)
        false [(ToJSON.key sqCfg dg [PyVal.int 5] [], PyVal.int 25)]
        ([PyVal.int 5], []) =
      ⟨[(ToJSON.key sqCfg dg [PyVal.int 5] [], PyVal.int 25)],
        Except.ok (PyVal.int 25), 0⟩ := by
  constructor <;>
    simp [MemoizeAPI.run, MemoizeAPI.get, MemoizeAPI.put, jsonBackend,
      ToJSON.check, ToJSON.fetch, ToJSON.store, dictGet, dictSet, square]

/-! Helper lemmas about the filesystem model. -/

/-- Removing an absent path leaves the filesystem unchanged. -/
theorem removeFile_of_absent (fs : Fs) (p : FPath)
    (h : (fs.find? (fun e => e.1 = p)).isSome = false) : removeFile fs p = fs := by
  have hn : fs.find? (fun e => decide (e.1 = p)) = Option.none := by
    cases hfind : fs.find? (fun e => decide (e.1 = p)) with
    | none => rfl
    | some x => rw [hfind] at h; simp at h
  rw [List.find?_eq_none] at hn
  unfold removeFile
  rw [List.filter_eq_self]
  intro e he
  simpa using hn e he

/-- After `removeFile` the path is no longer found. -/
theorem find?_removeFile_self (fs : Fs) (p : FPath) :
    (removeFile fs p).find? (fun e => e.1 = p) = Option.none := by
  rw [List.find?_eq_none]
  intro e he
  unfold removeFile at he
  have := (List.mem_filter.mp he).2
  simpa using this

/-- C8: `unlock` never raises: whatever the filesystem state, it completes
normally with `_lock = False` and the lock file removed, and calling it a
second time (the lock file now being gone, as after an external removal)
again completes normally in the unlocked state. -/
theorem unlock_idempotent_no_raise (c : FifoCfg) (fs : Fs) :
    c.unlock fs = Except.ok (removeFile fs c.full_key_path, false) ∧
    c.unlock (removeFile fs c.full_key_path) =
      Except.ok (removeFile fs c.full_key_path, false) := by
  constructor
  · unfold FifoCfg.unlock osRemove
    by_cases h : (fs.find? (fun e => e.1 = c.full_key_path)).isSome
    · simp [h]
    · have h' := eq_false_of_ne_true h
      simp [h', removeFile_of_absent fs c.full_key_path h']
  · unfold FifoCfg.unlock osRemove
    simp [find?_removeFile_self fs c.full_key_path]

/-- C4: the deadlock-age test of `wait_for_lock` compares the seconds
component of the lock file's age, not its total age: an age of 90000
seconds (25 hours) exceeds the default 3600-second threshold, yet the
guard does not fire, while an age of 3700 seconds does fire it. -/
theorem deadlock_age_guard_drops_days :
    deadlockGuard 3600 90000 = false ∧ deadlockGuard 3600 3700 = true ∧
      3600 < 90000 := by decide

/-- C3: `cast_lock` creates the lock file in the process working directory,
not in the configured lock directory: with `lock_path = "/tmp"` and working
directory `"/work"`, the freshly cast lock appears when listing `"/work"`,
listing `"/tmp"` shows nothing, and `check()` returns false. -/
theorem cast_lock_wrong_directory :
    listdir c3fs c3cfg.cwd = [c3cfg.lock_key] ∧
    c3cfg.check c3fs = false ∧
    listdir c3fs c3cfg.lock_path = [] := by decide

/-- C2 counterexample: with the invalidate flag set and an empty backend,
the delete of the (missing) derived key raises `FileNotFoundError`, which
`run` propagates without invoking the wrapped function — the missing key is
not tolerated silently. -/
theorem run_invalidate_missing_key_cex :
    MemoizeAPI.run jsonBackend square (fun a => ToJSON.key sqCfg dg0 a.1 a.2)
        true [] ([PyVal.int 5], []) =
      ⟨[], Except.error (MemErr.fileNotFound "square_D.json"), 0⟩ := rfl

/-- C2 amended: with the invalidate flag set, `run` deletes an existing
entry for the derived key and proceeds to recompute and store; but when the
backend holds no entry for that key, the delete raises the backend's
file-not-found error and `run` propagates it instead of computing. -/
theorem run_invalidate_amended (f : Args → PyVal) (okey : Args → String)
    (s : Store) (a : Args) (hnd : keysNodup s) :
    (ToJSON.check s (okey a) = true →
      MemoizeAPI.run jsonBackend f okey true s a =
        ⟨dictSet (dictRemove s (okey a)) (okey a) (f a), Except.ok (f a), 1⟩) ∧
    (ToJSON.check s (okey a) = false →
      MemoizeAPI.run jsonBackend f okey true s a =
        ⟨s, Except.error (MemErr.fileNotFound (okey a)), 0⟩) := by
  constructor
  · intro hc
    unfold ToJSON.check at hc
    have hgone : dictGet (dictRemove s (okey a)) (okey a) = Option.none :=
      dictGet_dictRemove s (okey a) hnd
    simp [MemoizeAPI.run, MemoizeAPI.get, MemoizeAPI.put, jsonBackend,
      ToJSON.delete, ToJSON.check, ToJSON.fetch, ToJSON.store, hc, hgone]
  · intro hc
    unfold ToJSON.check at hc
    simp [MemoizeAPI.run, jsonBackend, ToJSON.delete, ToJSON.check, hc]

/-- Witness for C2 amended: a backend holding key `"k"`; invalidation
deletes it, recomputes and stores the fresh value. -/
theorem run_invalidate_amended_witness :
    MemoizeAPI.run jsonBackend (fun _ => PyVal.int 9) (fun _ => "k") true
        [("k", PyVal.int 3)] ([], []) =
      ⟨[("k", PyVal.int 9)], Except.ok (PyVal.int 9), 1⟩ := by
  have h := (run_invalidate_amended (fun _ => PyVal.int 9) (fun _ => "k")
      [("k", PyVal.int 3)] ([], []) (by unfold keysNodup; decide)).1 (by decide)
  simpa [dictRemove, dictSet] using h

/-! Lock-scope facts about the instrumented traces. -/

/-- An existence-check event at lock depth zero obeys the discipline. -/
theorem evLockScope_check (k : String) (r : Bool) : evLockScope (Ev.check k r, 0) := by
  refine ⟨fun _ => rfl, ?_⟩
  rintro (⟨b, he⟩ | ⟨b, he⟩) <;> exact Ev.noConfusion he

/-- An acquire event obeys the discipline at any depth. -/
theorem evLockScope_acquire (n : Nat) : evLockScope (Ev.acquire, n) := by
  refine ⟨?_, ?_⟩
  · rintro (⟨a, b, he⟩ | he | ⟨a, he⟩) <;> exact Ev.noConfusion he
  · rintro (⟨a, he⟩ | ⟨a, he⟩) <;> exact Ev.noConfusion he

/-- A release event obeys the discipline at any depth. -/
theorem evLockScope_release (n : Nat) : evLockScope (Ev.release, n) := by
  refine ⟨?_, ?_⟩
  · rintro (⟨a, b, he⟩ | he | ⟨a, he⟩) <;> exact Ev.noConfusion he
  · rintro (⟨a, he⟩ | ⟨a, he⟩) <;> exact Ev.noConfusion he

/-- A fetch event at lock depth one obeys the discipline. -/
theorem evLockScope_fetch (k : String) : evLockScope (Ev.fetchEv k, 1) := by
  refine ⟨?_, fun _ => rfl⟩
  rintro (⟨a, b, he⟩ | he | ⟨a, he⟩) <;> exact Ev.noConfusion he

/-- A store event at lock depth one obeys the discipline. -/
theorem evLockScope_store (k : String) : evLockScope (Ev.storeEv k, 1) := by
  refine ⟨?_, fun _ => rfl⟩
  rintro (⟨a, b, he⟩ | he | ⟨a, he⟩) <;> exact Ev.noConfusion he

/-- A compute event at lock depth zero obeys the discipline. -/
theorem evLockScope_compute : evLockScope (Ev.compute, 0) := by
  refine ⟨fun _ => rfl, ?_⟩
  rintro (⟨a, he⟩ | ⟨a, he⟩) <;> exact Ev.noConfusion he

/-- A delete event at lock depth zero obeys the discipline. -/
theorem evLockScope_delete (k : String) : evLockScope (Ev.deleteEv k, 0) := by
  refine ⟨fun _ => rfl, ?_⟩
  rintro (⟨a, he⟩ | ⟨a, he⟩) <;> exact Ev.noConfusion he

/-- Every event of a `get` trace obeys the lock-scope discipline. -/
theorem getTrace_scope {σ : Type} (B : Backend σ) (s : σ) (k : String)
    (p : Ev × Nat) (hp : p ∈ getTrace B s k) : evLockScope p := by
  unfold getTrace at hp
  by_cases h : B.check s k
  · rw [if_pos h] at hp
    simp only [List.mem_cons, List.not_mem_nil, or_false] at hp
    rcases hp with h1 | h1 | h1 | h1 <;> subst h1
    · exact evLockScope_check k true
    · exact evLockScope_acquire 1
    · exact evLockScope_fetch k
    · exact evLockScope_release 0
  · rw [if_neg h] at hp
    simp only [List.mem_cons, List.not_mem_nil, or_false] at hp
    subst hp
    exact evLockScope_check k false

/-- Every event of a `put` trace obeys the lock-scope discipline. -/
theorem putTrace_scope {σ : Type} (B : Backend σ) (s : σ) (k : String)
    (p : Ev × Nat) (hp : p ∈ putTrace B s k) : evLockScope p := by
  unfold putTrace at hp
  by_cases h : B.check s k
  · rw [if_pos h] at hp
    simp only [List.mem_cons, List.not_mem_nil, or_false] at hp
    subst hp
    exact evLockScope_check k true
  · rw [if_neg h] at hp
    simp only [List.mem_cons, List.not_mem_nil, or_false] at hp
    rcases hp with h1 | h1 | h1 | h1 <;> subst h1
    · exact evLockScope_check k false
    · exact evLockScope_acquire 1
    · exact evLockScope_store k
    · exact evLockScope_release 0

/-- C1 counterexample: the miss run of the miss-then-hit scenario is a miss
(its trace contains the invocation of the wrapped function) and yet the
check-existence, compute, store sequence is not covered by the lock: the
computation happens with no lock held. -/
theorem run_miss_lock_gap_cex :
    (Ev.compute, 0) ∈ runTrace jsonBackend square
        (fun a => ToJSON.key sqCfg dg0 a.1 a.2) false [] ([PyVal.int 5], []) ∧
    lockCoversCCS (runTrace jsonBackend square
        (fun a => ToJSON.key sqCfg dg0 a.1 a.2) false [] ([PyVal.int 5], [])) =
      false := by decide

/-- C1 amended: in every `run` trace the engine holds no lock during the
existence checks, the invalidation delete and the wrapped-function
invocation; a lock is held exactly around the backend `fetch` and `store`
calls. -/
theorem run_lock_scope_amended {σ : Type} (B : Backend σ) (f : Args → PyVal)
    (okey : Args → String) (invalidate : Bool) (s : σ) (a : Args)
    (p : Ev × Nat) (hp : p ∈ runTrace B f okey invalidate s a) :
    evLockScope p := by
  unfold runTrace at hp
  cases invalidate with
  | false =>
      simp only [Bool.false_eq_true, if_false, List.nil_append] at hp
      by_cases hget : MemoizeAPI.get B s (okey a) = PyVal.none
      · rw [if_pos hget] at hp
        rcases List.mem_append.mp hp with h1 | h1
        · rcases List.mem_append.mp h1 with h2 | h2
          · exact getTrace_scope B s (okey a) p h2
          · simp only [List.mem_cons, List.not_mem_nil, or_false] at h2
            subst h2
            exact evLockScope_compute
        · exact putTrace_scope B s (okey a) p h1
      · rw [if_neg hget] at hp
        exact getTrace_scope B s (okey a) p hp
  | true =>
      simp only [if_true] at hp
      cases hd : B.delete s (okey a) with
      | error e =>
          rw [hd] at hp
          simp only [List.mem_cons, List.not_mem_nil, or_false] at hp
          subst hp
          exact evLockScope_delete (okey a)
      | ok s1 =>
          rw [hd] at hp
          replace hp : p ∈
              (if MemoizeAPI.get B s1 (okey a) = PyVal.none then
                [(Ev.deleteEv (okey a), 0)] ++ getTrace B s1 (okey a) ++
                  [(Ev.compute, 0)] ++ putTrace B s1 (okey a)
              else [(Ev.deleteEv (okey a), 0)] ++ getTrace B s1 (okey a)) := hp
          by_cases hget : MemoizeAPI.get B s1 (okey a) = PyVal.none
          · rw [if_pos hget] at hp
            rcases List.mem_append.mp hp with h1 | h1
            · rcases List.mem_append.mp h1 with h2 | h2
              · rcases List.mem_append.mp h2 with h3 | h3
                · simp only [List.mem_cons, List.not_mem_nil, or_false] at h3
                  subst h3
                  exact evLockScope_delete (okey a)
                · exact getTrace_scope B s1 (okey a) p h3
              · simp only [List.mem_cons, List.not_mem_nil, or_false] at h2
                subst h2
                exact evLockScope_compute
            · exact putTrace_scope B s1 (okey a) p h1
          · rw [if_neg hget] at hp
            rcases List.mem_append.mp hp with h1 | h1
            · simp only [List.mem_cons, List.not_mem_nil, or_false] at h1
              subst h1
              exact evLockScope_delete (okey a)
            · exact getTrace_scope B s1 (okey a) p h1

/-- Witness for C1 amended: the store event of the concrete miss trace
executes at lock depth one. -/
theorem run_lock_scope_amended_witness :
    (1 : Nat) = 1 :=
  (run_lock_scope_amended jsonBackend square
      (fun a => ToJSON.key sqCfg dg0 a.1 a.2) false [] ([PyVal.int 5], [])
      (Ev.storeEv (ToJSON.key sqCfg dg0 [PyVal.int 5] []), 1) (by decide)).2
    (Or.inr ⟨ToJSON.key sqCfg dg0 [PyVal.int 5] [], rfl⟩)

/-- C10 counterexample: from the idle two-instance state the full step
relation reaches a state in which both instances observe the held state at
the same instant — instance 1 reclaims the lock file of the live holder 0
once it is older than the threshold and then acquires the mutex itself. -/
theorem mutex_double_held_cex :
    MuxReach cfg2 mux0 mux6 ∧ mux6.status 0 = MuxStatus.held ∧
      mux6.status 1 = MuxStatus.held := by
  refine ⟨?_, by decide, by decide⟩
  have s1 : MuxStep cfg2 mux0 mux1 := MuxStep.cast mux0 0 (by decide)
  have s2 : MuxStep cfg2 mux1 mux2 := MuxStep.succeed mux1 0 0 (by decide) (by decide)
  have s3 : MuxStep cfg2 mux2 mux3 := MuxStep.cast mux2 1 (by decide)
  have s4 : MuxStep cfg2 mux3 mux4 := MuxStep.tick mux3 3601
  have s5 : MuxStep cfg2 mux4 mux5 := MuxStep.reclaim mux4 1 0 0 (by decide) (by decide) (by decide)
  have s6 : MuxStep cfg2 mux5 mux6 := MuxStep.succeed mux5 1 1 (by decide) (by decide)
  exact MuxReach.tail (MuxReach.tail (MuxReach.tail (MuxReach.tail
    (MuxReach.tail (MuxReach.tail (MuxReach.refl mux0) s1) s2) s3) s4) s5) s6

/-- The inductive invariant follows each reclamation-safe step. -/
theorem muxInv_preserved {ι : Type} [DecidableEq ι] (cfg : MuxCfg ι)
    {s u : MuxSys ι} (hs : MuxInv s) (hstep : MuxStepSafe cfg s u) : MuxInv u := by
  obtain ⟨h1, h2, h3⟩ := hs
  cases hstep with
  | cast i hi =>
      unfold MuxInv
      dsimp only
      refine ⟨?_, ?_, ?_⟩
      · intro k t hk
        by_cases hki : k = i
        · subst hki
          rw [Function.update_same] at hk
          cases hk
          exact Nat.lt_succ_self _
        · rw [Function.update_noteq hki] at hk
          exact Nat.lt_succ_of_lt (h1 k t hk)
      · intro k l tk tl hkl hk hl
        by_cases hki : k = i
        · subst hki
          rw [Function.update_same] at hk
          cases hk
          rw [Function.update_noteq (Ne.symm hkl)] at hl
          exact ne_of_gt (h1 l tl hl)
        · rw [Function.update_noteq hki] at hk
          by_cases hli : l = i
          · subst hli
            rw [Function.update_same] at hl
            cases hl
            exact ne_of_lt (h1 k tk hk)
          · rw [Function.update_noteq hli] at hl
            exact h2 k l tk tl hkl hk hl
      · intro k hk
        by_cases hki : k = i
        · subst hki
          rw [Function.update_same] at hk
          cases hk
        · rw [Function.update_noteq hki] at hk
          obtain ⟨t, hft, hmin⟩ := h3 k hk
          refine ⟨t, ?_, ?_⟩
          · rw [Function.update_noteq hki]
            exact hft
          · intro j tj hjk hj
            by_cases hji : j = i
            · subst hji
              rw [Function.update_same] at hj
              cases hj
              exact h1 k t hft
            · rw [Function.update_noteq hji] at hj
              exact hmin j tj hjk hj
  | succeed i t hw hold =>
      obtain ⟨hfi, hbeats⟩ := hold
      have hnone : ∀ p, p ≠ i → s.status p ≠ MuxStatus.held := by
        intro p hpi hp
        obtain ⟨tp, hfp, hminp⟩ := h3 p hp
        have htp : tp < t := hminp i t (Ne.symm hpi) hfi
        have hb := hbeats p hpi
        rw [hfp] at hb
        have hb2 : t < tp ∨ (t = tp ∧ cfg.tb i p = true) := hb
        rcases hb2 with hlt | ⟨heq, _⟩
        · exact absurd hlt (Nat.lt_asymm htp)
        · exact absurd (heq ▸ htp) (Nat.lt_irrefl _)
      unfold MuxInv
      dsimp only
      refine ⟨h1, h2, ?_⟩
      intro k hk
      by_cases hki : k = i
      · subst hki
        refine ⟨t, hfi, ?_⟩
        intro j tj hji hj
        have hb := hbeats j hji
        rw [hj] at hb
        have hb2 : t < tj ∨ (t = tj ∧ cfg.tb k j = true) := hb
        rcases hb2 with hlt | ⟨heq, _⟩
        · exact hlt
        · exact absurd heq (h2 k j t tj (Ne.symm hji) hfi hj)
      · rw [Function.update_noteq hki] at hk
        exact absurd hk (hnone k hki)
  | recast i hw hfnone =>
      unfold MuxInv
      dsimp only
      refine ⟨?_, ?_, ?_⟩
      · intro k t hk
        by_cases hki : k = i
        · subst hki
          rw [Function.update_same] at hk
          cases hk
          exact Nat.lt_succ_self _
        · rw [Function.update_noteq hki] at hk
          exact Nat.lt_succ_of_lt (h1 k t hk)
      · intro k l tk tl hkl hk hl
        by_cases hki : k = i
        · subst hki
          rw [Function.update_same] at hk
          cases hk
          rw [Function.update_noteq (Ne.symm hkl)] at hl
          exact ne_of_gt (h1 l tl hl)
        · rw [Function.update_noteq hki] at hk
          by_cases hli : l = i
          · subst hli
            rw [Function.update_same] at hl
            cases hl
            exact ne_of_lt (h1 k tk hk)
          · rw [Function.update_noteq hli] at hl
            exact h2 k l tk tl hkl hk hl
      · intro k hk
        have hki : ¬ k = i := by
          intro he
          rw [he, hw] at hk
          cases hk
        obtain ⟨tk, hfk, hmin⟩ := h3 k hk
        refine ⟨tk, ?_, ?_⟩
        · rw [Function.update_noteq hki]
          exact hfk
        · intro j tj hjk hj
          by_cases hji : j = i
          · subst hji
            rw [Function.update_same] at hj
            cases hj
            exact h1 k tk hfk
          · rw [Function.update_noteq hji] at hj
            exact hmin j tj hjk hj
  | reclaim i j t hw hold hg hnh =>
      unfold MuxInv
      dsimp only
      refine ⟨?_, ?_, ?_⟩
      · intro k tk hk
        by_cases hkj : k = j
        · subst hkj
          rw [Function.update_same] at hk
          cases hk
        · rw [Function.update_noteq hkj] at hk
          exact h1 k tk hk
      · intro k l tk tl hkl hk hl
        by_cases hkj : k = j
        · subst hkj
          rw [Function.update_same] at hk
          cases hk
        · rw [Function.update_noteq hkj] at hk
          by_cases hlj : l = j
          · subst hlj
            rw [Function.update_same] at hl
            cases hl
          · rw [Function.update_noteq hlj] at hl
            exact h2 k l tk tl hkl hk hl
      · intro k hk
        have hkj : ¬ k = j := by
          intro he
          rw [he] at hk
          exact hnh hk
        obtain ⟨tk, hfk, hmin⟩ := h3 k hk
        refine ⟨tk, ?_, ?_⟩
        · rw [Function.update_noteq hkj]
          exact hfk
        · intro l tl hlk hl
          by_cases hlj : l = j
          · subst hlj
            rw [Function.update_same] at hl
            cases hl
          · rw [Function.update_noteq hlj] at hl
            exact hmin l tl hlk hl
  | unlock i hh =>
      unfold MuxInv
      dsimp only
      refine ⟨?_, ?_, ?_⟩
      · intro k tk hk
        by_cases hki : k = i
        · subst hki
          rw [Function.update_same] at hk
          cases hk
        · rw [Function.update_noteq hki] at hk
          exact h1 k tk hk
      · intro k l tk tl hkl hk hl
        by_cases hki : k = i
        · subst hki
          rw [Function.update_same] at hk
          cases hk
        · rw [Function.update_noteq hki] at hk
          by_cases hli : l = i
          · subst hli
            rw [Function.update_same] at hl
            cases hl
          · rw [Function.update_noteq hli] at hl
            exact h2 k l tk tl hkl hk hl
      · intro k hk
        have hki : ¬ k = i := by
          intro he
          rw [he, Function.update_same] at hk
          cases hk
        rw [Function.update_noteq hki] at hk
        obtain ⟨tk, hfk, hmin⟩ := h3 k hk
        refine ⟨tk, ?_, ?_⟩
        · rw [Function.update_noteq hki]
          exact hfk
        · intro l tl hlk hl
          by_cases hli : l = i
          · subst hli
            rw [Function.update_same] at hl
            cases hl
          · rw [Function.update_noteq hli] at hl
            exact hmin l tl hlk hl
  | tick d =>
      unfold MuxInv
      dsimp only
      refine ⟨?_, h2, h3⟩
      intro k t hk
      exact Nat.lt_of_lt_of_le (h1 k t hk) (Nat.le_add_right _ _)

/-- The invariant implies the mutual-exclusion property. -/
theorem muxInv_atMostOne {ι : Type} (s : MuxSys ι) (h : MuxInv s) :
    AtMostOneHeld s := by
  intro i j hi hj
  by_contra hne
  obtain ⟨ti, hfi, hmi⟩ := h.2.2 i hi
  obtain ⟨tj, hfj, hmj⟩ := h.2.2 j hj
  have hij : ti < tj := hmi j tj (fun he => hne he.symm) hfj
  have hji : tj < ti := hmj i ti (fun he => hne he) hfi
  exact absurd hji (Nat.lt_asymm hij)

/-- C10 amended: starting from an idle state, along every execution in
which deadlock reclamation never removes the lock file of a live holder,
at most one instance observes the held state at any instant. -/
theorem mutex_exclusion_amended {ι : Type} [DecidableEq ι] (cfg : MuxCfg ι)
    (init s : MuxSys ι) (hfile : ∀ i, init.file i = Option.none)
    (hstat : ∀ i, init.status i = MuxStatus.unlocked)
    (hreach : MuxReachSafe cfg init s) : AtMostOneHeld s := by
  have hInv : MuxInv s := by
    induction hreach with
    | refl =>
        refine ⟨?_, ?_, ?_⟩
        · intro i t hi
          rw [hfile i] at hi
          cases hi
        · intro i j ti tj hij hi
          rw [hfile i] at hi
          cases hi
        · intro i hi
          rw [hstat i] at hi
          cases hi
    | tail hr hstep ih => exact muxInv_preserved cfg ih hstep
  exact muxInv_atMostOne s hInv

/-- Witness for C10 amended: the safe two-step execution in which instance
0 casts and acquires admits at most one holder. -/
theorem mutex_exclusion_amended_witness : AtMostOneHeld mux2 :=
  mutex_exclusion_amended cfg2 mux0 mux2 (fun _ => rfl) (fun _ => rfl)
    (MuxReachSafe.tail
      (MuxReachSafe.tail (MuxReachSafe.refl mux0)
        (MuxStepSafe.cast mux0 0 (by decide)))
      (MuxStepSafe.succeed mux1 0 0 (by decide) (by decide)))
